import Mathlib

/-!
Verification of the entry segmentation and author-continuation pipeline of
`omeka_bib_to_zotero.py` (functions `split_entries` and
`expand_repeated_authors`), via a shallow embedding in Lean.

Strings are modelled as `List Char` (Python strings are sequences of code
points).  The fixed regular expressions of the source are compiled into
executable Lean functions; a small backtracking matcher (`Re.mat`) reproduces
the leftmost / greedy / lazy semantics of Python's `re` module for the few
constructs those patterns use.  Python's `re.sub` replacement-template
expansion (which can raise `re.error` on bad escapes) is modelled by
`expandTemplate`, returning `Except`.
-/

namespace Biblio

/-- The set of characters matched by Python's regex `\s` on `str` patterns and
stripped by `str.strip()` (CPython uses `Py_UNICODE_ISSPACE` for both). -/
def isPySpace (c : Char) : Bool :=
  let n := c.toNat
  (9 ≤ n && n ≤ 13) || (28 ≤ n && n ≤ 31) || n == 32 || n == 0x85 || n == 0xA0 ||
    n == 0x1680 || (0x2000 ≤ n && n ≤ 0x200A) || n == 0x2028 || n == 0x2029 ||
    n == 0x202F || n == 0x205F || n == 0x3000

/-- ASCII uppercase letter, the character class `[A-Z]`. -/
def isUpperAZ (c : Char) : Bool := 'A' ≤ c && c ≤ 'Z'

/-- ASCII letter, as in the character class `[a-zA-Z]`. -/
def isAsciiLetter (c : Char) : Bool := isUpperAZ c || ('a' ≤ c && c ≤ 'z')

/-- Decimal digit as matched by `\d` (modelled on the ASCII digits `0-9`,
the only digits occurring in the texts this program processes). -/
def isPyDigit (c : Char) : Bool := c.isDigit

/-- Lower-casing of a character as performed by `str.lower()` /
`re.IGNORECASE`, modelled on the ASCII range (the only letters appearing in
the literal words the source compares against). -/
def pyLowerChar (c : Char) : Char :=
  if isUpperAZ c then Char.ofNat (c.toNat + 32) else c

/-- Left half of `str.strip()`: drop leading whitespace. -/
def dropLeadingWS (l : List Char) : List Char := l.dropWhile isPySpace

/-- Python `str.strip()`: drop leading and trailing whitespace. -/
def pyStrip (l : List Char) : List Char :=
  ((l.dropWhile isPySpace).reverse.dropWhile isPySpace).reverse

/-- The replacement `raw_text.replace('\xa0', ' ')`: non-breaking space to regular space. -/
def replaceNbsp (l : List Char) : List Char :=
  l.map (fun c => if c = '\xA0' then ' ' else c)

/-- The substitution `re.sub(r'\r\n?', '\n', text)`: normalize line endings. -/
def normNewlines : List Char → List Char
  | [] => []
  | '\r' :: '\n' :: cs => '\n' :: normNewlines cs
  | '\r' :: cs => '\n' :: normNewlines cs
  | c :: cs => c :: normNewlines cs

/-- Worker for `re.split(r'\n\n\n+', text)`: `pend` counts line feeds seen but
not yet classified, `acc` is the current block reversed.  A run of three or
more line feeds is a separator (the regex consumes the whole run greedily);
shorter runs stay inside the block. -/
def splitBlocksAux (pend : Nat) (acc : List Char) : List Char → List (List Char)
  | [] =>
    if 3 ≤ pend then [acc.reverse, []]
    else [acc.reverse ++ List.replicate pend '\n']
  | c :: cs =>
    if c = '\n' then splitBlocksAux (pend + 1) acc cs
    else if 3 ≤ pend then acc.reverse :: splitBlocksAux 0 [c] cs
    else splitBlocksAux 0 (c :: (List.replicate pend '\n' ++ acc)) cs

/-- The split `re.split(r'\n\n\n+', text)`. -/
def splitBlocks (l : List Char) : List (List Char) := splitBlocksAux 0 [] l

/-- Worker for `re.sub(r'\s+', ' ', block)`: each maximal run of whitespace
becomes a single space; `inRun` records whether the previous character was
whitespace. -/
def collapseWSAux (inRun : Bool) : List Char → List Char
  | [] => []
  | c :: cs =>
    if isPySpace c then
      if inRun then collapseWSAux true cs else ' ' :: collapseWSAux true cs
    else c :: collapseWSAux false cs

/-- The collapse `re.sub(r'\s+', ' ', block)`. -/
def collapseWS (l : List Char) : List Char := collapseWSAux false l

/-- The per-block flattening `re.sub(r'\s+', ' ', block).strip()`. -/
def flattenBlock (l : List Char) : List Char := pyStrip (collapseWS l)

/-- Whether `l` contains four consecutive decimal digits:
`re.search(r'\d{4}', entry_text)`. -/
def hasFourDigits : List Char → Bool
  | [] => false
  | c :: cs =>
    (match c :: cs with
     | a :: b :: d :: e :: _ => isPyDigit a && isPyDigit b && isPyDigit d && isPyDigit e
     | _ => false) || hasFourDigits cs

/-- The test `entry_text.lower().startswith("search using this query type")`. -/
def startsWithSearchQuery (l : List Char) : Bool :=
  ("search using this query type".data).isPrefixOf (l.map pyLowerChar)

/-- The alternatives of the navigation filter
`^(home|about|browse|search|contact|map|essays?|collections?)`. -/
def navWords : List (List Char) :=
  ["home".data, "about".data, "browse".data, "search".data, "contact".data,
   "map".data, "essay".data, "essays".data, "collection".data, "collections".data]

/-- The filter `re.match(r'^(home|...|collections?)(\s|$)', entry_text, re.IGNORECASE)`:
one of the navigation words at the start (case-insensitively), followed by a
whitespace character or the end of the string (`entry_text` is flattened, so
it contains no line feed and `$` means end of string). -/
def isNavBlock (l : List Char) : Bool :=
  navWords.any fun w =>
    let low := l.map pyLowerChar
    w.isPrefixOf low &&
      (match low.drop w.length with
       | [] => true
       | c :: _ => isPySpace c)

/-- The body of the `for block in raw_blocks` loop of `split_entries`:
`none` when the block is skipped by a `continue`, otherwise the flattened
entry text that is appended. -/
def processBlock (block : List Char) : Option (List Char) :=
  let b := pyStrip block
  if b = [] then none
  else
    let t := flattenBlock b
    if startsWithSearchQuery t then none
    else if isNavBlock t then none
    else if t.length < 20 && !hasFourDigits t then none
    else some t

/-- Function `split_entries(raw_text)` from `omeka_bib_to_zotero.py`. -/
def split_entries (raw_text : String) : List String :=
  ((splitBlocks (normNewlines (replaceNbsp raw_text.data))).filterMap
    processBlock).map (fun l => String.mk l)

/-!
## A small backtracking regex matcher

The patterns in `expand_repeated_authors` use only: single-character classes,
greedy and lazy counted repetition of a character class (`+`, `+?`, `*`,
`{3,}`, `{2,}`), optional groups (`?`), concatenation, alternation, one
capturing group per pattern, and the `$` anchor.  `Re.mat` enumerates the
candidate matches of a pattern against a prefix of the input in exactly the
order Python's backtracking engine explores them (alternatives left to right,
greedy repetitions longest first, lazy ones shortest first, `?` with the
present branch first), so the head of the list is the match `re.match` finds.
-/

/-- Regular-expression abstract syntax (the fragment used by the source). -/
inductive Re where
  | eps : Re
  | cls (p : Char → Bool) : Re
  | rep (lazy : Bool) (min : Nat) (p : Char → Bool) : Re
  | opt (r : Re) : Re
  | cat (a b : Re) : Re
  | alt (a b : Re) : Re
  | grp (r : Re) : Re
  | eol : Re

namespace Re

/-- Length of the maximal prefix of `l` whose characters satisfy `p`. -/
def runLen (p : Char → Bool) : List Char → Nat
  | [] => 0
  | c :: cs => if p c then runLen p cs + 1 else 0

/-- A candidate match: number of characters consumed, and the capturing
group's span `(start, length)` relative to the point where matching began,
when the pattern contains a group. -/
abbrev Cand := Nat × Option (Nat × Nat)

/-- All candidate matches of `r` against a prefix of `s`, in backtracking
priority order.  The head (if any) is the match Python's engine commits to. -/
def mat : Re → List Char → List Cand
  | eps, _ => [(0, none)]
  | cls _, [] => []
  | cls p, c :: _ => if p c then [(1, none)] else []
  | rep lz min p, s =>
    let m := runLen p s
    if m < min then []
    else
      let counts := List.range' min (m - min + 1)
      (if lz then counts else counts.reverse).map (fun n => (n, none))
  | opt r, s => mat r s ++ [(0, none)]
  | cat a b, s =>
    (mat a s).flatMap fun x =>
      (mat b (s.drop x.1)).map fun y =>
        (x.1 + y.1,
          match x.2 with
          | some sp => some sp
          | none => y.2.map fun sp => (sp.1 + x.1, sp.2))
  | alt a b, s => mat a s ++ mat b s
  | grp r, s => (mat r s).map fun x => (x.1, some (0, x.1))
  | eol, s => if s = [] || s = ['\n'] then [(0, none)] else []

/-- Python `re.match(pattern, s)`: the first candidate, or `none`. -/
def pyMatch (r : Re) (s : List Char) : Option Cand := (mat r s).head?

/-- Right-nested concatenation of a list of regexes. -/
def seqs : List Re → Re
  | [] => eps
  | [r] => r
  | r :: rs => cat r (seqs rs)

end Re

/-- Text of the capturing group of a successful match `x` against `s`
(`m.group(1)`). -/
def captureOf (s : List Char) (x : Re.Cand) : List Char :=
  match x.2 with
  | some sp => (s.drop sp.1).take sp.2
  | none => []

/-!
## The patterns of `expand_repeated_authors`
-/

/-- Pattern 1, `^([A-Z][a-zA-Z\'\-]+(?:\s+[A-Z]\.?)?,\s+[A-Z][a-zA-Z\.\s\-]+?)\.\s+[\[\d]`. -/
def patP1 : Re :=
  Re.cat
    (Re.grp (Re.seqs
      [Re.cls isUpperAZ,
       Re.rep false 1 (fun c => isAsciiLetter c || c == '\'' || c == '-'),
       Re.opt (Re.seqs
         [Re.rep false 1 isPySpace, Re.cls isUpperAZ, Re.opt (Re.cls (fun c => c == '.'))]),
       Re.cls (fun c => c == ','),
       Re.rep false 1 isPySpace,
       Re.cls isUpperAZ,
       Re.rep true 1 (fun c => isAsciiLetter c || c == '.' || isPySpace c || c == '-')]))
    (Re.seqs
      [Re.cls (fun c => c == '.'),
       Re.rep false 1 isPySpace,
       Re.cls (fun c => c == '[' || isPyDigit c)])

/-- Pattern 2, `^([^\.]+?)\s*\[[^\]]+\]\.\s+[\d\[]`. -/
def patP2 : Re :=
  Re.seqs
    [Re.grp (Re.rep true 1 (fun c => c != '.')),
     Re.rep false 0 isPySpace,
     Re.cls (fun c => c == '['),
     Re.rep false 1 (fun c => c != ']'),
     Re.cls (fun c => c == ']'),
     Re.cls (fun c => c == '.'),
     Re.rep false 1 isPySpace,
     Re.cls (fun c => isPyDigit c || c == '[')]

/-- Pattern 3, `^([A-Z][^\.]+)\.\s+`. -/
def patP3 : Re :=
  Re.seqs
    [Re.grp (Re.cat (Re.cls isUpperAZ) (Re.rep false 1 (fun c => c != '.'))),
     Re.cls (fun c => c == '.'),
     Re.rep false 1 isPySpace]

/-- The ditto-marker alternation `(_{3,}|—{2,}|—)`. -/
def dittoCore : Re :=
  Re.alt (Re.rep false 3 (fun c => c == '_'))
    (Re.alt (Re.rep false 2 (fun c => c == '—')) (Re.cls (fun c => c == '—')))

/-- Ditto detection, `^(_{3,}|—{2,}|—)\.?\s`. -/
def dittoDetect : Re :=
  Re.seqs [Re.grp dittoCore, Re.opt (Re.cls (fun c => c == '.')), Re.cls isPySpace]

/-- The pattern of the ditto substitution, `^(_{3,}|—{2,}|—)\.?`. -/
def dittoSubPat : Re :=
  Re.cat (Re.grp dittoCore) (Re.opt (Re.cls (fun c => c == '.')))

/-- The year-stripping pattern `\s+\d{4}[a-z]?$` (not anchored at the start). -/
def yearPat : Re :=
  Re.seqs
    [Re.rep false 1 isPySpace,
     Re.cls isPyDigit, Re.cls isPyDigit, Re.cls isPyDigit, Re.cls isPyDigit,
     Re.opt (Re.cls (fun c => 'a' ≤ c && c ≤ 'z')),
     Re.eol]

/-- The call `re.sub(r'\s+\d{4}[a-z]?$', '', candidate)`: delete the leftmost match.
Because every match of `yearPat` ends at the `$` anchor, at most one
(non-overlapping) match exists and nothing after it can match again, so the
text remaining after the leftmost match is returned unscanned. -/
def yearSub : List Char → List Char
  | [] => []
  | c :: cs =>
    match Re.pyMatch yearPat (c :: cs) with
    | some x => (c :: cs).drop x.1
    | none => c :: yearSub cs

/-!
## `re.sub` replacement-template expansion

The call `re.sub(r'^(_{3,}|—{2,}|—)\.?', prev_author + '.', e, count=1)` feeds
`prev_author + '.'` to CPython's replacement-template parser
(`sre_parse.parse_template`).  That parser raises `re.error` on bad escapes,
which is how `expand_repeated_authors` can raise: the spec's totality claim is
settled against this model.  `expandTemplate g0 g1 t` expands template `t`
where `g0` is the whole match (`\g<0>`) and `g1` the text of group 1 (the
pattern has exactly one group, so references to group 2 and above are
invalid).  The semantics follows CPython: `\1`..`\99` are group references
unless three octal digits form an octal escape, `\0` starts an octal escape of
up to two further octal digits (value masked to one byte), `\a \b \f \n \r \t
\v \\` are character escapes, `\` + any other ASCII letter is an error, `\` +
a non-letter is kept literally, a trailing `\` is an error, and `\g` must be
followed by `<name>` with `name` a valid group number or name.
-/

/-- Parser state between characters of the template. -/
inductive TmplState where
  | norm : TmplState
  | bslash : TmplState
  | oct (v : Nat) (more : Nat) : TmplState
  | dig1 (d : Nat) : TmplState
  | dig2 (d e : Nat) : TmplState
  | gOpen : TmplState
  | gName (isEmpty : Bool) (allDigits : Bool) (v : Nat) : TmplState

/-- Character escapes valid in a template (`\a \b \f \n \r \t \v`). -/
def tmplEscape (c : Char) : Option Char :=
  if c = 'a' then some (Char.ofNat 7)
  else if c = 'b' then some (Char.ofNat 8)
  else if c = 'f' then some (Char.ofNat 12)
  else if c = 'n' then some (Char.ofNat 10)
  else if c = 'r' then some (Char.ofNat 13)
  else if c = 't' then some (Char.ofNat 9)
  else if c = 'v' then some (Char.ofNat 11)
  else none

/-- Octal digit test. -/
def isOctDigit (c : Char) : Bool := '0' ≤ c && c ≤ '7'

/-- The character denoted by an octal escape (CPython masks with `0xff`). -/
def octChar (v : Nat) : Char := Char.ofNat (v % 256)

/-- Resolve a numeric group reference against the one-group pattern. -/
def groupRef (g0 g1 : List Char) (i : Nat) : Except String (List Char) :=
  if i = 0 then .ok g0
  else if i = 1 then .ok g1
  else .error "invalid group reference"

/-- One-pass template expansion; see the section comment. -/
def expandTmplAux (g0 g1 : List Char) : TmplState → List Char → Except String (List Char)
  | .norm, [] => .ok []
  | .norm, c :: cs =>
    if c = '\\' then expandTmplAux g0 g1 .bslash cs
    else (expandTmplAux g0 g1 .norm cs).map (fun r => c :: r)
  | .bslash, [] => .error "bad escape (end of pattern)"
  | .bslash, c :: cs =>
    if c = 'g' then expandTmplAux g0 g1 .gOpen cs
    else if c = '0' then expandTmplAux g0 g1 (.oct 0 2) cs
    else if isPyDigit c then expandTmplAux g0 g1 (.dig1 (c.toNat - 48)) cs
    else if c = '\\' then (expandTmplAux g0 g1 .norm cs).map (fun r => '\\' :: r)
    else
      match tmplEscape c with
      | some ch => (expandTmplAux g0 g1 .norm cs).map (fun r => ch :: r)
      | none =>
        if isAsciiLetter c then .error "bad escape"
        else (expandTmplAux g0 g1 .norm cs).map (fun r => '\\' :: c :: r)
  | .oct v _, [] => .ok [octChar v]
  | .oct v more, c :: cs =>
    if 0 < more && isOctDigit c then
      expandTmplAux g0 g1 (.oct (8 * v + (c.toNat - 48)) (more - 1)) cs
    else if c = '\\' then (expandTmplAux g0 g1 .bslash cs).map (fun r => octChar v :: r)
    else (expandTmplAux g0 g1 .norm cs).map (fun r => octChar v :: c :: r)
  | .dig1 d, [] => (groupRef g0 g1 d).map (fun g => g)
  | .dig1 d, c :: cs =>
    if isPyDigit c then expandTmplAux g0 g1 (.dig2 d (c.toNat - 48)) cs
    else if c = '\\' then
      (groupRef g0 g1 d).bind fun g =>
        (expandTmplAux g0 g1 .bslash cs).map (fun r => g ++ r)
    else
      (groupRef g0 g1 d).bind fun g =>
        (expandTmplAux g0 g1 .norm cs).map (fun r => g ++ c :: r)
  | .dig2 d e, [] => groupRef g0 g1 (10 * d + e)
  | .dig2 d e, c :: cs =>
    if d ≤ 7 && e ≤ 7 && isOctDigit c then
      (expandTmplAux g0 g1 .norm cs).map
        (fun r => octChar (64 * d + 8 * e + (c.toNat - 48)) :: r)
    else if c = '\\' then
      (groupRef g0 g1 (10 * d + e)).bind fun g =>
        (expandTmplAux g0 g1 .bslash cs).map (fun r => g ++ r)
    else
      (groupRef g0 g1 (10 * d + e)).bind fun g =>
        (expandTmplAux g0 g1 .norm cs).map (fun r => g ++ c :: r)
  | .gOpen, [] => .error "missing <"
  | .gOpen, c :: cs =>
    if c = '<' then expandTmplAux g0 g1 (.gName true true 0) cs
    else .error "missing <"
  | .gName _ _ _, [] => .error "missing >, unterminated name"
  | .gName isEmpty allDigits v, c :: cs =>
    if c = '>' then
      if isEmpty then .error "missing group name"
      else if allDigits then
        (groupRef g0 g1 v).bind fun g =>
          (expandTmplAux g0 g1 .norm cs).map (fun r => g ++ r)
      else .error "unknown group name"
    else if isPyDigit c then
      expandTmplAux g0 g1 (.gName false allDigits (10 * v + (c.toNat - 48))) cs
    else expandTmplAux g0 g1 (.gName false false v) cs

/-- Expansion of a replacement template, CPython `re` semantics. -/
def expandTemplate (g0 g1 t : List Char) : Except String (List Char) :=
  expandTmplAux g0 g1 .norm t

/-!
## `expand_repeated_authors`
-/

/-- Python truthiness of `prev_author` (`if prev_author:` is false both for
`None` and for the empty string). -/
def truthy : Option (List Char) → Bool
  | none => false
  | some l => !l.isEmpty

/-- The author-extraction cascade of `expand_repeated_authors` (patterns 1-3,
tried in order on the possibly rewritten entry); returns the new
`prev_author`. -/
def extractAuthor (prev : Option (List Char)) (e : List Char) : Option (List Char) :=
  match Re.pyMatch patP1 e with
  | some x => some (pyStrip (captureOf e x))
  | none =>
    match Re.pyMatch patP2 e with
    | some x => some (pyStrip (captureOf e x))
    | none =>
      match Re.pyMatch patP3 e with
      | some x => some (yearSub (pyStrip (captureOf e x)))
      | none => prev

/-- The call `re.sub(r'^(_{3,}|—{2,}|—)\.?', prev_author + '.', e, count=1)`: the
pattern is anchored, so only a match at position 0 is replaced. -/
def dittoSub (author e : List Char) : Except String (List Char) :=
  match Re.pyMatch dittoSubPat e with
  | some x =>
    (expandTemplate (e.take x.1) (captureOf e x) (author ++ ['.'])).map
      (fun r => r ++ e.drop x.1)
  | none => .ok e

/-- The body of the `for e in entries` loop: ditto substitution (when a ditto
marker is detected and `prev_author` is truthy), then author extraction on the
resulting entry.  Returns the updated `prev_author` and the output entry, or
the `re.error` raised by the substitution. -/
def processEntry (prev : Option (List Char)) (e : List Char) :
    Except String (Option (List Char) × List Char) :=
  let dm := Re.pyMatch dittoDetect e
  let esub : Except String (List Char) :=
    if dm.isSome && truthy prev then dittoSub (prev.getD []) e
    else .ok e
  match esub with
  | .ok e2 => .ok (extractAuthor prev e2, e2)
  | .error msg => .error msg

/-- The loop of `expand_repeated_authors`, threading `prev_author`. -/
def expandAux (prev : Option (List Char)) : List (List Char) → Except String (List (List Char))
  | [] => .ok []
  | e :: es =>
    match processEntry prev e with
    | .error msg => .error msg
    | .ok (p', e') =>
      match expandAux p' es with
      | .error msg => .error msg
      | .ok rest => .ok (e' :: rest)

/-- Function `expand_repeated_authors(entries)` from `omeka_bib_to_zotero.py`.
A `.error` result models the `re.error` exception CPython raises while
parsing the replacement template. -/
def expand_repeated_authors (entries : List String) : Except String (List String) :=
  (expandAux none (entries.map String.data)).map (List.map (fun l => String.mk l))

/-!
## Auxiliary observations used in theorem statements
-/

/-- Lengths of the maximal runs of decimal digits in a string (`cur` is the
length of the run in progress). -/
def digitRunLens (cur : Nat) : List Char → List Nat
  | [] => if cur = 0 then [] else [cur]
  | c :: cs =>
    if isPyDigit c then digitRunLens (cur + 1) cs
    else if cur = 0 then digitRunLens 0 cs else cur :: digitRunLens 0 cs

/-- Number of maximal digit runs of length at least four — the number of
"year strings" an entry contains. -/
def yearRunCount (l : List Char) : Nat :=
  (digitRunLens 0 l).countP (fun n => decide (4 ≤ n))

/-- Decidable equality for `Except` results, used to evaluate the pipeline on
concrete inputs. -/
instance {ε α : Type} [DecidableEq ε] [DecidableEq α] : DecidableEq (Except ε α) := fun x y =>
  match x, y with
  | .ok a, .ok b =>
    if h : a = b then .isTrue (by rw [h]) else .isFalse (fun hc => h (Except.ok.inj hc))
  | .error a, .error b =>
    if h : a = b then .isTrue (by rw [h]) else .isFalse (fun hc => h (Except.error.inj hc))
  | .ok _, .error _ => .isFalse (fun hc => Except.noConfusion hc)
  | .error _, .ok _ => .isFalse (fun hc => Except.noConfusion hc)

/-!
## Claims settled on concrete inputs
-/

/-- C1 (counterexample): on the raw input
`"Entry One.\n\n\n\nEntry\nTwo continued."` the Segmenter does NOT return
`["Entry One.", "Entry Two continued."]` — the first block has only 10
characters and no four-digit sequence, so the short-block filter discards
it. -/
theorem split_entries_spec_example_fails :
    split_entries "Entry One.\n\n\n\nEntry\nTwo continued." ≠
      ["Entry One.", "Entry Two continued."] := by decide

/-- C1 (amended): on the raw input `"Entry One.\n\n\n\nEntry\nTwo continued."`
(four consecutive line feeds separating two blocks) the Segmenter returns
exactly `["Entry Two continued."]`: the four line feeds do act as a single
block separator and the internal single line feed of the second block is
flattened to a space, but the first block `"Entry One."` (length 10, no
four-digit sequence) is discarded by the short-yearless-block filter. -/
theorem split_entries_spec_example_actual :
    split_entries "Entry One.\n\n\n\nEntry\nTwo continued." =
      ["Entry Two continued."] := by decide

/-- C3: the ditto-resolution scenario.  The Resolver expands both ditto
markers to `"Smith, Jane."` and re-extracts the author from the rewritten
entries, so no entry accumulates more than one year string. -/
theorem expand_ditto_resolution_scenario :
    expand_repeated_authors
      ["Smith, Jane. 1950. A Title. Pub.", "______. 1955. Another Title. Pub.",
       "______. 1960a. Third Title. Pub."] =
    .ok ["Smith, Jane. 1950. A Title. Pub.", "Smith, Jane. 1955. Another Title. Pub.",
         "Smith, Jane. 1960a. Third Title. Pub."] ∧
    (["Smith, Jane. 1950. A Title. Pub.", "Smith, Jane. 1955. Another Title. Pub.",
      "Smith, Jane. 1960a. Third Title. Pub."].all
        fun s => yearRunCount s.data ≤ 1) = true := by
  constructor
  · decide
  · decide

/-- C10: the bracketed-qualifier pattern (pattern 2) puts no name-shape
constraint on its capture.  On the first entry the ditto marker is
unresolvable (`prev_author` unset) but pattern 2 then captures the underscore
run `"______"` as the remembered author, so the second entry's em-dash ditto
marker is expanded into an underscore ditto marker. -/
theorem bracket_qualifier_nonname_author :
    processEntry none "______ [pseud.]. 1950. A Title.".data =
      .ok (some "______".data, "______ [pseud.]. 1950. A Title.".data) ∧
    expand_repeated_authors
      ["______ [pseud.]. 1950. A Title.", "———. 1955. B Title."] =
    .ok ["______ [pseud.]. 1950. A Title.", "______. 1955. B Title."] := by
  constructor
  · decide
  · decide

/-- C2 (counterexample): `expand_repeated_authors` is not total.  Pattern 2
captures `"Nov\qk"` (backslash included) as the remembered author from the
first entry; substituting it into the second entry feeds `"Nov\qk."` to the
replacement-template parser, which rejects the escape `\q` — in CPython the
call raises `re.error: bad escape \q`. -/
theorem expand_raises_on_backslash_author :
    expand_repeated_authors ["Nov\\qk [pseud.]. 1950. T.", "______. 1955. U."] =
      .error "bad escape" := by decide

/-!
## Helper lemmas about the resolver
-/

/-- Stripping only removes characters. -/
theorem pyStrip_subset (l : List Char) : pyStrip l ⊆ l := by
  intro c hc
  unfold pyStrip at hc
  rw [List.mem_reverse] at hc
  have h1 := List.dropWhile_subset (l := (l.dropWhile isPySpace).reverse) isPySpace hc
  rw [List.mem_reverse] at h1
  exact List.dropWhile_subset isPySpace h1

/-- A capture is a segment of the subject string. -/
theorem captureOf_subset (s : List Char) (x : Re.Cand) : captureOf s x ⊆ s := by
  obtain ⟨n, g⟩ := x
  cases g with
  | none => intro c hc; simp [captureOf] at hc
  | some sp =>
    intro c hc
    simp only [captureOf] at hc
    exact List.drop_subset sp.1 s (List.take_subset sp.2 _ hc)

/-- Unfolding equation for `yearSub` on a nonempty list. -/
theorem yearSub_cons (c : Char) (cs : List Char) :
    yearSub (c :: cs) =
      (match Re.pyMatch yearPat (c :: cs) with
       | some x => (c :: cs).drop x.1
       | none => c :: yearSub cs) := rfl

/-- Year stripping only removes characters. -/
theorem yearSub_subset : ∀ l : List Char, yearSub l ⊆ l := by
  intro l
  induction l with
  | nil => intro c hc; exact absurd hc (List.not_mem_nil c)
  | cons c cs ih =>
    intro a ha
    rw [yearSub_cons] at ha
    cases hm : Re.pyMatch yearPat (c :: cs) with
    | some x =>
      rw [hm] at ha
      exact List.drop_subset _ _ ha
    | none =>
      rw [hm] at ha
      rcases List.mem_cons.1 ha with h | h
      · exact List.mem_cons.2 (Or.inl h)
      · exact List.mem_cons.2 (Or.inr (ih h))

/-- A backslash-free replacement template expands to itself. -/
theorem expandTemplate_no_bslash (g0 g1 : List Char) :
    ∀ t : List Char, '\\' ∉ t → expandTemplate g0 g1 t = .ok t := by
  intro t
  unfold expandTemplate
  induction t with
  | nil => intro _; rfl
  | cons c cs ih =>
    intro h
    have hc : ¬(c = '\\') := fun e => h (by simp [e])
    have hcs : '\\' ∉ cs := fun m => h (List.mem_cons_of_mem _ m)
    simp only [expandTmplAux, if_neg hc]
    rw [ih hcs]
    rfl

/-- The author-extraction cascade either keeps the previous state or returns
a (stripped, year-stripped) segment of the entry. -/
theorem extractAuthor_cases (prev : Option (List Char)) (e : List Char) :
    extractAuthor prev e = prev ∨
    ∃ sub : List Char, sub ⊆ e ∧ extractAuthor prev e = some sub := by
  unfold extractAuthor
  cases h1 : Re.pyMatch patP1 e with
  | some x =>
    exact Or.inr ⟨_, fun c hc => captureOf_subset e x (pyStrip_subset _ hc), rfl⟩
  | none =>
    cases h2 : Re.pyMatch patP2 e with
    | some x =>
      exact Or.inr ⟨_, fun c hc => captureOf_subset e x (pyStrip_subset _ hc), rfl⟩
    | none =>
      cases h3 : Re.pyMatch patP3 e with
      | some x =>
        exact Or.inr ⟨_, fun c hc =>
          captureOf_subset e x (pyStrip_subset _ (yearSub_subset _ hc)), rfl⟩
      | none => exact Or.inl rfl

/-- When none of the three extraction patterns matches, the previous author
is preserved. -/
theorem extractAuthor_no_match (prev : Option (List Char)) (e : List Char)
    (h1 : Re.pyMatch patP1 e = none) (h2 : Re.pyMatch patP2 e = none)
    (h3 : Re.pyMatch patP3 e = none) : extractAuthor prev e = prev := by
  simp [extractAuthor, h1, h2, h3]

/-- Inversion for a successful `processEntry` step: the new state is the
extraction run on the output entry, and with no previous author the entry
passes through unchanged. -/
theorem processEntry_ok_inv (prev : Option (List Char)) (e : List Char)
    (p' : Option (List Char)) (e' : List Char)
    (h : processEntry prev e = .ok (p', e')) :
    p' = extractAuthor prev e' ∧ (prev = none → e' = e) := by
  simp only [processEntry] at h
  by_cases hc : ((Re.pyMatch dittoDetect e).isSome && truthy prev) = true
  · rw [if_pos hc] at h
    cases hx : dittoSub (prev.getD []) e with
    | error m => rw [hx] at h; simp at h
    | ok e2 =>
      rw [hx] at h
      simp at h
      obtain ⟨h1, h2⟩ := h
      refine ⟨by rw [← h1, ← h2], ?_⟩
      intro hn
      subst hn
      simp [truthy] at hc
  · rw [if_neg hc] at h
    simp at h
    obtain ⟨h1, h2⟩ := h
    exact ⟨by rw [← h1, ← h2], fun _ => h2.symm⟩

/-- A `processEntry` step on backslash-free data succeeds and keeps the
state and the output entry backslash-free. -/
theorem processEntry_ok_no_bslash (prev : Option (List Char)) (e : List Char)
    (hp : ∀ a, prev = some a → '\\' ∉ a) (he : '\\' ∉ e) :
    ∃ p' e', processEntry prev e = .ok (p', e') ∧
      (∀ a, p' = some a → '\\' ∉ a) ∧ '\\' ∉ e' := by
  have hnew : ∀ e2 : List Char, '\\' ∉ e2 →
      ∀ a, extractAuthor prev e2 = some a → '\\' ∉ a := by
    intro e2 he2 a ha hmem
    rcases extractAuthor_cases prev e2 with h | ⟨sub, hsub, h⟩
    · rw [h] at ha; exact hp a ha hmem
    · rw [h] at ha
      injection ha with ha
      exact he2 (hsub (ha ▸ hmem))
  by_cases hc : ((Re.pyMatch dittoDetect e).isSome && truthy prev) = true
  · obtain ⟨a0, rfl⟩ : ∃ a, prev = some a := by
      cases prev with
      | none => simp [truthy] at hc
      | some a => exact ⟨a, rfl⟩
    have ha0 : '\\' ∉ a0 := hp a0 rfl
    cases hm : Re.pyMatch dittoSubPat e with
    | none =>
      refine ⟨extractAuthor (some a0) e, e, ?_, hnew e he, he⟩
      simp [processEntry, hc, dittoSub, hm]
    | some x =>
      have hnb : '\\' ∉ a0 ++ ['.'] := by
        intro hmem
        rcases List.mem_append.1 hmem with h | h
        · exact ha0 h
        · simp at h
      have hexp : expandTemplate (e.take x.1) (captureOf e x) (a0 ++ ['.']) =
          .ok (a0 ++ ['.']) := expandTemplate_no_bslash _ _ _ hnb
      have he2 : '\\' ∉ (a0 ++ ['.']) ++ e.drop x.1 := by
        intro hmem
        rcases List.mem_append.1 hmem with h | h
        · exact hnb h
        · exact he (List.drop_subset _ _ h)
      refine ⟨extractAuthor (some a0) ((a0 ++ ['.']) ++ e.drop x.1),
        (a0 ++ ['.']) ++ e.drop x.1, ?_, hnew _ he2, he2⟩
      simp [processEntry, hc, dittoSub, hm, hexp, Except.map]
  · refine ⟨extractAuthor prev e, e, ?_, hnew e he, he⟩
    simp [processEntry, hc]

/-- The resolver loop succeeds on backslash-free entries. -/
theorem expandAux_ok_no_bslash : ∀ (es : List (List Char)) (prev : Option (List Char)),
    (∀ a, prev = some a → '\\' ∉ a) → (∀ e ∈ es, '\\' ∉ e) →
    ∃ out, expandAux prev es = .ok out := by
  intro es
  induction es with
  | nil => exact fun prev _ _ => ⟨[], rfl⟩
  | cons e es ih =>
    intro prev hp hes
    obtain ⟨p', e', hpe, hp', _⟩ :=
      processEntry_ok_no_bslash prev e hp (hes e (List.mem_cons_self _ _))
    obtain ⟨out, hout⟩ := ih p' hp' (fun x hx => hes x (List.mem_cons_of_mem _ hx))
    exact ⟨e' :: out, by simp [expandAux, hpe, hout]⟩

/-- Projection of a constructed string. -/
theorem string_data_mk (l : List Char) : (String.mk l).data = l := rfl

/-- Cons-inversion of the resolver loop: a successful run yields a chain of
author-memory states, starting from the initial one, such that each output
entry is exactly the loop body applied to the input entry at the same
position and the state reached before it. -/
theorem expandAux_trace : ∀ (es : List (List Char)) (prev : Option (List Char))
    (out : List (List Char)), expandAux prev es = .ok out →
    ∃ states : List (Option (List Char)),
      states.length = es.length + 1 ∧
      states.head? = some prev ∧
      ∀ i (hi : i < es.length) (ho : i < out.length) (hs : i < states.length)
        (hs2 : i + 1 < states.length),
        processEntry states[i] es[i] = .ok (states[i + 1], out[i]) := by
  intro es
  induction es with
  | nil =>
    intro prev out h
    refine ⟨[prev], rfl, rfl, ?_⟩
    intro i hi
    exact absurd hi (by simp)
  | cons e es ih =>
    intro prev out h
    simp only [expandAux] at h
    cases hx : processEntry prev e with
    | error m => rw [hx] at h; simp at h
    | ok pe =>
      obtain ⟨p', e'⟩ := pe
      rw [hx] at h
      simp only [] at h
      cases hy : expandAux p' es with
      | error m => rw [hy] at h; simp at h
      | ok rest =>
        rw [hy] at h
        simp at h
        subst h
        obtain ⟨states, hslen, hshead, hstep⟩ := ih p' rest hy
        cases states with
        | nil => simp at hshead
        | cons s ss =>
          have hsp : s = p' := by simpa using hshead
          refine ⟨prev :: s :: ss, by simpa using hslen, rfl, ?_⟩
          intro i hi ho hs hs2
          cases i with
          | zero =>
            simpa [hsp] using hx
          | succ j =>
            have hi' : j < es.length := by simpa using hi
            have ho' : j < rest.length := by simpa using ho
            have hs' : j < (s :: ss).length := by
              simp at hs
              simpa using hs
            have hs2' : j + 1 < (s :: ss).length := by
              simp at hs2
              simpa using hs2
            simpa using hstep j hi' ho' hs' hs2'

/-- The resolver loop preserves the sequence length. -/
theorem expandAux_length : ∀ (es : List (List Char)) (prev : Option (List Char))
    (out : List (List Char)), expandAux prev es = .ok out → out.length = es.length := by
  intro es
  induction es with
  | nil =>
    intro prev out h
    simp only [expandAux] at h
    injection h with h
    rw [← h]
  | cons e es ih =>
    intro prev out h
    simp only [expandAux] at h
    cases hx : processEntry prev e with
    | error m => rw [hx] at h; simp at h
    | ok pe =>
      obtain ⟨p', e'⟩ := pe
      rw [hx] at h
      simp only [] at h
      cases hy : expandAux p' es with
      | error m => rw [hy] at h; simp at h
      | ok rest =>
        rw [hy] at h
        simp at h
        rw [← h]
        simp [ih p' rest hy]

/-!
## Universal claims about the resolver
-/

/-- C2 (amended): the Resolver returns normally on every input in which no
entry contains a backslash (in particular on any input containing regex
metacharacters, brackets or ditto markers but no backslash); and when no
author-extraction pattern matches an entry, the prior `prev_author` state is
preserved. -/
theorem expand_ok_of_no_backslash :
    ∀ entries : List String, (∀ e ∈ entries, '\\' ∉ e.data) →
    (∃ out, expand_repeated_authors entries = .ok out) ∧
    (∀ (prev : Option (List Char)) (e : List Char),
      Re.pyMatch patP1 e = none → Re.pyMatch patP2 e = none →
      Re.pyMatch patP3 e = none → extractAuthor prev e = prev) := by
  intro entries h
  constructor
  · obtain ⟨out, hout⟩ := expandAux_ok_no_bslash (entries.map String.data) none
      (by intro a ha; cases ha)
      (by
        intro l hl
        rw [List.mem_map] at hl
        obtain ⟨s, hs, rfl⟩ := hl
        exact h s hs)
    exact ⟨out.map (fun l => String.mk l),
      by simp [expand_repeated_authors, hout, Except.map]⟩
  · exact fun prev e h1 h2 h3 => extractAuthor_no_match prev e h1 h2 h3

/-- C2 witness: a concrete backslash-free input full of regex metacharacters
on which the Resolver returns normally. -/
theorem expand_ok_of_no_backslash_witness :
    (∀ e ∈ ["Entry [with] (meta*+?) ______ chars.", "______. 1950. X."],
      '\\' ∉ (e : String).data) ∧
    (∃ out, expand_repeated_authors
      ["Entry [with] (meta*+?) ______ chars.", "______. 1950. X."] = .ok out) :=
  ⟨by decide, (expand_ok_of_no_backslash _ (by decide)).1⟩

/-- C4: a successful Resolver run returns exactly one output entry per input
entry, in order: the output has the same length as the input, and there is a
chain of author-memory states, starting from the unset state, such that the
i-th output entry is exactly the entry produced by the loop body applied to
the i-th input entry and the i-th state — each entry is rewritten in place,
never dropped, duplicated, or reordered. -/
theorem expand_length_order_invariant (entries out : List String)
    (h : expand_repeated_authors entries = .ok out) :
    out.length = entries.length ∧
    ∃ states : List (Option (List Char)),
      states.length = entries.length + 1 ∧
      states.head? = some none ∧
      ∀ i (hi : i < entries.length) (ho : i < out.length) (hs : i < states.length)
        (hs2 : i + 1 < states.length),
        processEntry states[i] (entries[i]).data = .ok (states[i + 1], (out[i]).data) := by
  unfold expand_repeated_authors at h
  cases hx : expandAux none (entries.map String.data) with
  | error m => rw [hx] at h; simp [Except.map] at h
  | ok res =>
    rw [hx] at h
    simp [Except.map] at h
    subst h
    constructor
    · have hlen := expandAux_length _ _ _ hx
      simpa using hlen
    · obtain ⟨states, hslen, hshead, hstep⟩ := expandAux_trace _ _ _ hx
      refine ⟨states, by simpa using hslen, hshead, ?_⟩
      intro i hi ho hs hs2
      have hi' : i < (entries.map String.data).length := by simpa using hi
      have ho' : i < res.length := by simpa using ho
      have hgoal := hstep i hi' ho' hs hs2
      simpa [List.getElem_map, string_data_mk] using hgoal

/-- C4 witness: length preservation and the positional state chain on a
concrete two-entry input. -/
theorem expand_length_order_invariant_witness :
    expand_repeated_authors ["Smith, Jane. 1950. A Title. Pub.", "______. 1955. B."] =
      .ok ["Smith, Jane. 1950. A Title. Pub.", "Smith, Jane. 1955. B."] ∧
    (["Smith, Jane. 1950. A Title. Pub.", "Smith, Jane. 1955. B."] : List String).length =
      (["Smith, Jane. 1950. A Title. Pub.", "______. 1955. B."] : List String).length :=
  ⟨by decide, (expand_length_order_invariant _ _ (by decide)).1⟩

/-- C6: across one `processEntry` step, a set `prev_author` is never reset to
the unset state (it is either kept or overwritten by a newly extracted
author); when no extraction pattern matches the (possibly rewritten) entry
the state is exactly preserved; and while the state is still unset the entry
— in particular one beginning with a ditto marker — is passed through
unexpanded. -/
theorem resolver_author_memory_invariant (prev : Option (List Char)) (e : List Char)
    (p' : Option (List Char)) (e' : List Char)
    (h : processEntry prev e = .ok (p', e')) :
    (prev.isSome = true → p'.isSome = true) ∧
    ((Re.pyMatch patP1 e' = none ∧ Re.pyMatch patP2 e' = none ∧
      Re.pyMatch patP3 e' = none) → p' = prev) ∧
    (prev = none → e' = e) := by
  obtain ⟨hp', hne⟩ := processEntry_ok_inv prev e p' e' h
  refine ⟨?_, ?_, hne⟩
  · intro hs
    rw [hp']
    rcases extractAuthor_cases prev e' with hcase | ⟨sub, _, hcase⟩
    · rw [hcase]; exact hs
    · rw [hcase]; rfl
  · intro ⟨h1, h2, h3⟩
    rw [hp', extractAuthor_no_match prev e' h1 h2 h3]

/-- C6 witness: a concrete step where no extraction pattern matches, so the
set state survives unchanged (hence stays set). -/
theorem resolver_author_memory_invariant_witness :
    processEntry (some "Rossi, Mario".data) "No author pattern here".data =
      .ok (some "Rossi, Mario".data, "No author pattern here".data) ∧
    (some "Rossi, Mario".data : Option (List Char)).isSome = true :=
  ⟨by decide,
    (resolver_author_memory_invariant (some "Rossi, Mario".data)
      "No author pattern here".data (some "Rossi, Mario".data)
      "No author pattern here".data (by decide)).1 (by decide)⟩

/-- C7: an entry met while `prev_author` is still unset is passed through
completely unchanged (in particular one beginning with a ditto marker), and
concretely `resolve(["______. 1950. Orphan entry."])` returns its input
unmodified. -/
theorem unresolvable_leading_ditto :
    (∀ (e e' : List Char) (p' : Option (List Char)),
      processEntry none e = .ok (p', e') → e' = e) ∧
    expand_repeated_authors ["______. 1950. Orphan entry."] =
      .ok ["______. 1950. Orphan entry."] := by
  constructor
  · intro e e' p' h
    exact (processEntry_ok_inv none e p' e' h).2 rfl
  · decide

/-- C7 witness: the pass-through fact instantiated on the orphan entry. -/
theorem unresolvable_leading_ditto_witness :
    processEntry none "______. 1950. Orphan entry.".data =
      .ok (none, "______. 1950. Orphan entry.".data) ∧
    "______. 1950. Orphan entry.".data = "______. 1950. Orphan entry.".data :=
  ⟨by decide,
    unresolvable_leading_ditto.1 "______. 1950. Orphan entry.".data
      "______. 1950. Orphan entry.".data none (by decide)⟩

/-!
## Helper lemmas about the segmenter
-/

/-- Stripping keeps a front segment of the leading-whitespace-stripped list. -/
theorem pyStrip_isPre (l : List Char) : pyStrip l <+: l.dropWhile isPySpace := by
  have hsuf : ((l.dropWhile isPySpace).reverse.dropWhile isPySpace) <:+
      (l.dropWhile isPySpace).reverse := List.dropWhile_suffix isPySpace
  have h := List.reverse_prefix.2 hsuf
  rwa [List.reverse_reverse] at h

/-- A nonempty stripped list starts with a non-whitespace character. -/
theorem pyStrip_head_not_space (l : List Char) (c : Char) (cs : List Char)
    (h : pyStrip l = c :: cs) : isPySpace c = false := by
  obtain ⟨t, ht⟩ := pyStrip_isPre l
  rw [h] at ht
  have hd : (l.dropWhile isPySpace).head? = some c := by rw [← ht]; rfl
  have hw := List.head?_dropWhile_not isPySpace l
  rw [hd] at hw
  exact hw

/-- A nonempty stripped list ends with a non-whitespace character. -/
theorem pyStrip_last_not_space (l : List Char) (c : Char) (cs : List Char)
    (h : (pyStrip l).reverse = c :: cs) : isPySpace c = false := by
  have hrev : (pyStrip l).reverse =
      (l.dropWhile isPySpace).reverse.dropWhile isPySpace := by
    unfold pyStrip
    rw [List.reverse_reverse]
  rw [hrev] at h
  have hd : ((l.dropWhile isPySpace).reverse.dropWhile isPySpace).head? = some c := by
    rw [h]
    rfl
  have hw := List.head?_dropWhile_not isPySpace (l.dropWhile isPySpace).reverse
  rw [hd] at hw
  exact hw

/-- Inversion for a block that survives all the filters of `split_entries`. -/
theorem processBlock_eq_some (b l : List Char) (h : processBlock b = some l) :
    l = flattenBlock (pyStrip b) ∧
    (decide ((flattenBlock (pyStrip b)).length < 20) &&
      !hasFourDigits (flattenBlock (pyStrip b))) = false := by
  simp only [processBlock] at h
  by_cases h0 : pyStrip b = []
  · rw [if_pos h0] at h; simp at h
  · rw [if_neg h0] at h
    by_cases hq : startsWithSearchQuery (flattenBlock (pyStrip b)) = true
    · rw [if_pos hq] at h; simp at h
    · rw [if_neg hq] at h
      by_cases hn : isNavBlock (flattenBlock (pyStrip b)) = true
      · rw [if_pos hn] at h; simp at h
      · rw [if_neg hn] at h
        by_cases hshort : (decide ((flattenBlock (pyStrip b)).length < 20) &&
            !hasFourDigits (flattenBlock (pyStrip b))) = true
        · rw [if_pos hshort] at h; simp at h
        · rw [if_neg hshort] at h
          injection h with h
          exact ⟨h.symm, by simpa using hshort⟩

/-!
## Segmenter claims
-/

/-- C5: the Segmenter is a total function of its input (the embedding is a
plain Lean function), returns the empty sequence on the empty string, and no
output entry is empty or whitespace-only. -/
theorem split_entries_total_no_blank_output :
    split_entries "" = [] ∧
    ∀ (raw s : String), s ∈ split_entries raw →
      s ≠ "" ∧ s.data.any (fun c => !isPySpace c) = true := by
  refine ⟨by decide, ?_⟩
  intro raw s hs
  unfold split_entries at hs
  rw [List.mem_map] at hs
  obtain ⟨l, hl, rfl⟩ := hs
  rw [List.mem_filterMap] at hl
  obtain ⟨b, _, hb⟩ := hl
  obtain ⟨hl_eq, hcond⟩ := processBlock_eq_some b l hb
  cases hl0 : l with
  | nil =>
    rw [← hl_eq, hl0] at hcond
    exact absurd hcond (by decide)
  | cons c cs =>
    subst hl0
    have hc : isPySpace c = false := by
      apply pyStrip_head_not_space (collapseWS (pyStrip b)) c cs
      show flattenBlock (pyStrip b) = c :: cs
      rw [← hl_eq]
    constructor
    · intro h0
      have := congrArg String.data h0
      simp at this
    · simp [hc]

/-- C5 witness: a concrete run whose single output entry is nonempty and not
whitespace-only. -/
theorem split_entries_total_no_blank_output_witness :
    "Doe, J. 1999." ∈ split_entries "Doe, J. 1999." ∧
    ("Doe, J. 1999." ≠ "" ∧
      ("Doe, J. 1999." : String).data.any (fun c => !isPySpace c) = true) :=
  ⟨by decide,
    split_entries_total_no_blank_output.2 "Doe, J. 1999." "Doe, J. 1999." (by decide)⟩

/-- C8: a flattened block shorter than 20 characters with no four-digit
sequence is discarded; one shorter than 20 characters that does contain a
four-digit sequence passes the short-block filter (and is kept whenever the
other two filters also pass).  Concretely `"Doe, J. 1999."` (13 characters,
year present) is kept while `"Browse our site"` is dropped — the latter both
matches the navigation word `browse` and is short with no year. -/
theorem short_block_filter :
    (∀ b : List Char, (flattenBlock (pyStrip b)).length < 20 →
      hasFourDigits (flattenBlock (pyStrip b)) = false → processBlock b = none) ∧
    (∀ b : List Char, (flattenBlock (pyStrip b)).length < 20 →
      hasFourDigits (flattenBlock (pyStrip b)) = true →
      startsWithSearchQuery (flattenBlock (pyStrip b)) = false →
      isNavBlock (flattenBlock (pyStrip b)) = false →
      processBlock b = some (flattenBlock (pyStrip b))) ∧
    processBlock "Doe, J. 1999.".data = some "Doe, J. 1999.".data ∧
    (processBlock "Browse our site".data = none ∧
      isNavBlock (flattenBlock (pyStrip "Browse our site".data)) = true ∧
      (flattenBlock (pyStrip "Browse our site".data)).length < 20 ∧
      hasFourDigits (flattenBlock (pyStrip "Browse our site".data)) = false) := by
  refine ⟨?_, ?_, by decide, by decide, by decide, by decide, by decide⟩
  · intro b hlen h4
    simp only [processBlock]
    by_cases h0 : pyStrip b = []
    · rw [if_pos h0]
    · rw [if_neg h0]
      by_cases hq : startsWithSearchQuery (flattenBlock (pyStrip b)) = true
      · rw [if_pos hq]
      · rw [if_neg hq]
        by_cases hn : isNavBlock (flattenBlock (pyStrip b)) = true
        · rw [if_pos hn]
        · rw [if_neg hn]
          have hcond : (decide ((flattenBlock (pyStrip b)).length < 20) &&
              !hasFourDigits (flattenBlock (pyStrip b))) = true := by
            rw [h4]
            simp [hlen]
          rw [if_pos hcond]
  · intro b hlen h4 hq hn
    simp only [processBlock]
    have h0 : ¬(pyStrip b = []) := by
      intro h0
      rw [h0] at h4
      exact absurd h4 (by decide)
    rw [if_neg h0, if_neg (by simp [hq]), if_neg (by simp [hn]),
      if_neg (show ¬((decide ((flattenBlock (pyStrip b)).length < 20) &&
        !hasFourDigits (flattenBlock (pyStrip b))) = true) by simp [h4])]

/-- C8 witness: the discard rule instantiated on the short yearless block
`"hi there"`. -/
theorem short_block_filter_witness :
    ((flattenBlock (pyStrip "hi there".data)).length < 20 ∧
      hasFourDigits (flattenBlock (pyStrip "hi there".data)) = false) ∧
    processBlock "hi there".data = none :=
  ⟨by decide, short_block_filter.1 "hi there".data (by decide) (by decide)⟩

/-!
## Idempotence of per-block flattening
-/

/-- Adjacent characters are never both whitespace. -/
def wsAdj (a b : Char) : Prop := ¬(isPySpace a = true ∧ isPySpace b = true)

/-- Unfolding equation for `collapseWSAux` on a nonempty list. -/
theorem collapseWSAux_cons (f : Bool) (d : Char) (ds : List Char) :
    collapseWSAux f (d :: ds) =
      if isPySpace d then
        (if f then collapseWSAux true ds else ' ' :: collapseWSAux true ds)
      else d :: collapseWSAux false ds := rfl

/-- Every whitespace character in a collapsed list is the plain space. -/
theorem collapseWSAux_space_mem : ∀ (f : Bool) (l : List Char) (c : Char),
    c ∈ collapseWSAux f l → isPySpace c = true → c = ' ' := by
  intro f l
  induction l generalizing f with
  | nil => intro c hc; exact absurd hc (List.not_mem_nil c)
  | cons d ds ih =>
    intro c hc hsp
    rw [collapseWSAux_cons] at hc
    by_cases hd : isPySpace d = true
    · rw [if_pos hd] at hc
      cases f with
      | true =>
        rw [if_pos rfl] at hc
        exact ih true c hc hsp
      | false =>
        rw [if_neg (by simp)] at hc
        rcases List.mem_cons.1 hc with h | h
        · exact h
        · exact ih true c h hsp
    · rw [if_neg hd] at hc
      rcases List.mem_cons.1 hc with h | h
      · subst h; exact absurd hsp (by simpa using hd)
      · exact ih false c h hsp

/-- A collapsed list in skipping mode starts with a non-whitespace
character. -/
theorem collapseWSAux_true_head : ∀ (l : List Char) (c : Char) (cs : List Char),
    collapseWSAux true l = c :: cs → isPySpace c = false := by
  intro l
  induction l with
  | nil => intro c cs h; exact absurd h (by simp [collapseWSAux])
  | cons d ds ih =>
    intro c cs h
    rw [collapseWSAux_cons] at h
    by_cases hd : isPySpace d = true
    · rw [if_pos hd, if_pos rfl] at h
      exact ih c cs h
    · rw [if_neg hd] at h
      injection h with h1 _
      subst h1
      simpa using hd

/-- Head-option form of `collapseWSAux_true_head`. -/
theorem collapseWSAux_true_head? (l : List Char) :
    ∀ c ∈ (collapseWSAux true l).head?, isPySpace c = false := by
  intro c hc
  cases hh : collapseWSAux true l with
  | nil => rw [hh] at hc; exact absurd hc (by simp)
  | cons d ds =>
    rw [hh] at hc
    have : c = d := by simpa using hc.symm
    subst this
    exact collapseWSAux_true_head l c ds hh

/-- A collapsed list never contains two adjacent whitespace characters. -/
theorem collapseWSAux_chain : ∀ (f : Bool) (l : List Char),
    List.Chain' wsAdj (collapseWSAux f l) := by
  intro f l
  induction l generalizing f with
  | nil => exact List.chain'_nil
  | cons d ds ih =>
    rw [collapseWSAux_cons]
    by_cases hd : isPySpace d = true
    · rw [if_pos hd]
      cases f with
      | true => rw [if_pos rfl]; exact ih true
      | false =>
        rw [if_neg (by simp)]
        rw [List.chain'_cons']
        refine ⟨?_, ih true⟩
        intro y hy
        intro hpair
        exact absurd hpair.2 (by simp [collapseWSAux_true_head? ds y hy])
    · rw [if_neg hd]
      rw [List.chain'_cons']
      refine ⟨?_, ih false⟩
      intro y _
      intro hpair
      exact absurd hpair.1 (by simpa using hd)

/-- Chains of `wsAdj` survive reversal. -/
theorem chain_wsAdj_reverse {l : List Char} (h : List.Chain' wsAdj l) :
    List.Chain' wsAdj l.reverse :=
  List.chain'_reverse.mpr (h.imp fun _ _ hab => fun hp => hab ⟨hp.2, hp.1⟩)

/-- Chains of `wsAdj` survive stripping. -/
theorem chain_wsAdj_pyStrip {l : List Char} (h : List.Chain' wsAdj l) :
    List.Chain' wsAdj (pyStrip l) := by
  unfold pyStrip
  exact chain_wsAdj_reverse
    ((chain_wsAdj_reverse (h.suffix (List.dropWhile_suffix _))).suffix
      (List.dropWhile_suffix _))

/-- Collapsing is the identity on lists whose whitespace is already
normalized (all spaces plain, none adjacent). -/
theorem collapseWSAux_id : ∀ y : List Char,
    (∀ c ∈ y, isPySpace c = true → c = ' ') → List.Chain' wsAdj y →
    (collapseWSAux false y = y ∧
      ((∀ c cs, y = c :: cs → isPySpace c = false) → collapseWSAux true y = y)) := by
  intro y
  induction y with
  | nil => exact fun _ _ => ⟨rfl, fun _ => rfl⟩
  | cons d ds ih =>
    intro hall hch
    have hall' : ∀ c ∈ ds, isPySpace c = true → c = ' ' :=
      fun c hc => hall c (List.mem_cons_of_mem _ hc)
    have hch' : List.Chain' wsAdj ds := (List.chain'_cons'.1 hch).2
    have hhead : ∀ y ∈ ds.head?, wsAdj d y := (List.chain'_cons'.1 hch).1
    by_cases hd : isPySpace d = true
    · have hd' : d = ' ' := hall d (List.mem_cons_self _ _) hd
      have hdsh : ∀ c cs, ds = c :: cs → isPySpace c = false := by
        intro c cs hcs
        have hw : wsAdj d c := hhead c (by rw [hcs]; rfl)
        by_contra hcc
        exact hw ⟨hd, by simpa using hcc⟩
      have hds := (ih hall' hch').2 hdsh
      constructor
      · rw [collapseWSAux_cons, if_pos hd, if_neg (by simp), hds, hd']
      · intro hy
        exact absurd (hy d ds rfl) (by simp [hd])
    · have hds := (ih hall' hch').1
      constructor
      · rw [collapseWSAux_cons, if_neg hd, hds]
      · intro _
        rw [collapseWSAux_cons, if_neg hd, hds]

/-- Identity of `dropWhile` when the head fails the predicate. -/
theorem dropWhile_id_of_head {p : Char → Bool} : ∀ (l : List Char),
    (∀ c cs, l = c :: cs → p c = false) → l.dropWhile p = l := by
  intro l h
  cases l with
  | nil => rfl
  | cons c cs => rw [List.dropWhile_cons, if_neg (by simp [h c cs rfl])]

/-- Stripping is the identity when both ends are non-whitespace. -/
theorem pyStrip_id (y : List Char)
    (h1 : ∀ c cs, y = c :: cs → isPySpace c = false)
    (h2 : ∀ c cs, y.reverse = c :: cs → isPySpace c = false) :
    pyStrip y = y := by
  unfold pyStrip
  rw [dropWhile_id_of_head y h1, dropWhile_id_of_head y.reverse h2,
    List.reverse_reverse]

/-- C9: the per-block flattening of the Segmenter (collapse every whitespace
run to one space, then strip) is idempotent. -/
theorem flatten_idempotent : ∀ l : List Char,
    flattenBlock (flattenBlock l) = flattenBlock l := by
  intro l
  have hall : ∀ c ∈ flattenBlock l, isPySpace c = true → c = ' ' := by
    intro c hc
    exact collapseWSAux_space_mem false l c (pyStrip_subset _ hc)
  have hch : List.Chain' wsAdj (flattenBlock l) :=
    chain_wsAdj_pyStrip (collapseWSAux_chain false l)
  have hhd : ∀ c cs, flattenBlock l = c :: cs → isPySpace c = false := by
    intro c cs h
    exact pyStrip_head_not_space (collapseWS l) c cs h
  have hlast : ∀ c cs, (flattenBlock l).reverse = c :: cs → isPySpace c = false := by
    intro c cs h
    exact pyStrip_last_not_space (collapseWS l) c cs h
  show pyStrip (collapseWS (flattenBlock l)) = flattenBlock l
  rw [show collapseWS (flattenBlock l) = flattenBlock l from
      (collapseWSAux_id _ hall hch).1,
    pyStrip_id _ hhd hlast]

end Biblio
